import Mathlib

/-!
Verification of the network host-port classification, filtering,
deduplication and ordering engine described by the repository's
specification and exercised by its host-port test suite.

The production sources of this subsystem are not part of the sampled
tree (only the test suite is), so every operation below is modelled
from the specification's words; the concrete evaluation theorems at
the end of the file check the model against the vectors of the test
suite.
-/

set_option maxHeartbeats 1000000

namespace HostPortSpec

/-- Modelled from the spec: the scope enumeration of §3 for the missing
address classifier sources ({Public, CloudLocal, MachineLocal, LinkLocal,
Unknown}). -/
inductive Scope where
  | public
  | cloudLocal
  | machineLocal
  | linkLocal
  | unknown
deriving DecidableEq

/-- Modelled from the spec: the `Address` value of §3 of the missing
address sources — a textual value plus the scope derived from it at
construction time. -/
structure Address where
  value : String
  scope : Scope
deriving DecidableEq

/-- Modelled from the spec: the `HostPort` value of §3 of the missing
host-port sources — an address paired with an integral port; equality is
exact equality of (value, scope, port). -/
structure HostPort where
  address : Address
  port : Int
deriving DecidableEq

/-! ### Character-list utilities used by the textual parsers -/

/-- Splits a character list at every occurrence of `sep`; the separator
is dropped and the bounded pieces are returned in order (there is always
at least one piece, and an empty input yields one empty piece). -/
def splitOnChar (sep : Char) : List Char → List (List Char)
  | [] => [[]]
  | c :: rest =>
    let r := splitOnChar sep rest
    if c = sep then [] :: r
    else
      match r with
      | [] => [[c]]
      | h :: t => (c :: h) :: t

/-- Finds the first occurrence of two adjacent colons and returns the
characters before and after it, or `none` when there is no `::`. -/
def breakDC : List Char → Option (List Char × List Char)
  | [] => none
  | [_] => none
  | c1 :: c2 :: rest =>
    if c1 = ':' ∧ c2 = ':' then some ([], rest)
    else (breakDC (c2 :: rest)).map (fun p => (c1 :: p.1, p.2))

def isHexDigit (c : Char) : Bool :=
  (48 ≤ c.toNat && c.toNat ≤ 57) ||
    (97 ≤ c.toNat && c.toNat ≤ 102) ||
    (65 ≤ c.toNat && c.toNat ≤ 70)

def hexVal (c : Char) : Nat :=
  if c.toNat ≤ 57 then c.toNat - 48
  else if 65 ≤ c.toNat ∧ c.toNat ≤ 70 then c.toNat - 55
  else c.toNat - 87

/-- Modelled from the spec: one 16-bit group of an IPv6 literal of the
missing address parser — one to four hexadecimal digits. -/
def parseHexGroup (g : List Char) : Option Nat :=
  if g ≠ [] ∧ g.length ≤ 4 ∧ g.all isHexDigit then
    some (g.foldl (fun a c => a * 16 + hexVal c) 0)
  else none

/-- Parses every piece as a hexadecimal group, failing when any piece
fails. -/
def allGroups : List (List Char) → Option (List Nat)
  | [] => some []
  | p :: rest =>
    match parseHexGroup p, allGroups rest with
    | some g, some gs => some (g :: gs)
    | _, _ => none

/-- Modelled from the spec: one decimal octet of a dotted-quad IPv4
literal of the missing address parser — one to three decimal digits
whose value is at most 255. -/
def parseOctet (g : List Char) : Option Nat :=
  if g ≠ [] ∧ g.length ≤ 3 ∧ g.all Char.isDigit ∧
      g.foldl (fun a c => a * 10 + (c.toNat - 48)) 0 ≤ 255 then
    some (g.foldl (fun a c => a * 10 + (c.toNat - 48)) 0)
  else none

/-- Modelled from the spec: IPv4-literal recognition of the missing
address classifier sources — a dotted quad of four decimal octets. -/
def parseIPv4 (l : List Char) : Option (Nat × Nat × Nat × Nat) :=
  match splitOnChar '.' l with
  | [a, b, c, d] =>
    match parseOctet a, parseOctet b, parseOctet c, parseOctet d with
    | some x, some y, some z, some w => some (x, y, z, w)
    | _, _, _, _ => none
  | _ => none

/-- Modelled from the spec: IPv6-literal recognition of the missing
address classifier sources — colon-separated hexadecimal groups with at
most one `::` compression expanding to the eight-group form (the
IPv4-embedded textual forms, which the spec never mentions, are not
modelled). The empty side of a compression contributes no groups. -/
def groupsOf (side : List Char) : Option (List Nat) :=
  if side = [] then some [] else allGroups (splitOnChar ':' side)

/-- Modelled from the spec: IPv6-literal recognition of the missing
address classifier sources, assembled from `groupsOf`; returns the eight
16-bit groups. -/
def parseIPv6 (l : List Char) : Option (List Nat) :=
  match breakDC l with
  | some (lft, rgt) =>
    if (breakDC rgt).isSome then none
    else
      match groupsOf lft, groupsOf rgt with
      | some a, some b =>
        if a.length + b.length ≤ 7 then
          some (a ++ List.replicate (8 - a.length - b.length) 0 ++ b)
        else none
      | _, _ => none
  | none =>
    match allGroups (splitOnChar ':' l) with
    | some a => if a.length = 8 then some a else none
    | none => none

/-- Numeric value of a parsed IPv4 literal. -/
def ipv4Value (a b c d : Nat) : Nat :=
  ((a * 256 + b) * 256 + c) * 256 + d

/-- Numeric value of a parsed IPv6 literal (big-endian group order). -/
def ipv6Value (g : List Nat) : Nat :=
  g.foldl (fun a x => a * 65536 + x) 0

/-- Modelled from the spec: the missing address scope classifier of
§4.1, on a character list. Loopback (`127.0.0.0/8`, `::1`) is
MachineLocal; link-local (`169.254.0.0/16`, `fe80::/10`, `ff01::/16`) is
LinkLocal; private (`10.0.0.0/8`, `172.16.0.0/12`, `192.168.0.0/16`,
`fc00::/7`) is CloudLocal; every other IP literal is Public; a value
that is not an IP literal is a hostname and gets scope Unknown. -/
def classifyL (l : List Char) : Scope :=
  match parseIPv4 l with
  | some (a, b, _, _) =>
    if a = 127 then .machineLocal
    else if a = 169 ∧ b = 254 then .linkLocal
    else if a = 10 ∨ (a = 172 ∧ 16 ≤ b ∧ b ≤ 31) ∨ (a = 192 ∧ b = 168) then .cloudLocal
    else .public
  | none =>
    match parseIPv6 l with
    | some g =>
      if g = [0, 0, 0, 0, 0, 0, 0, 1] then .machineLocal
      else if g.headD 0 / 64 = 1018 ∨ g.headD 0 = 65281 then .linkLocal
      else if g.headD 0 / 512 = 126 then .cloudLocal
      else .public
    | none => .unknown

/-- Modelled from the spec: `classify(value) -> Scope` of §4.1 of the
missing address sources. -/
def classify (value : String) : Scope :=
  classifyL value.toList

/-- Modelled from the spec: the address constructor of §3 of the missing
address sources — the scope is derived from the textual value at
construction time. -/
def NewAddress (value : String) : Address :=
  ⟨value, classify value⟩

/-- Modelled from the spec: the constructor form of §4.2 of the missing
host-port sources, building host-ports from an address list and one
shared port. -/
def AddressesWithPort (addrs : List Address) (port : Int) : List HostPort :=
  addrs.map (fun a => ⟨a, port⟩)

/-- Modelled from the spec: extraction of the address list from a
host-port list, the inverse direction exercised by the test suite. -/
def HostsWithoutPort (hps : List HostPort) : List Address :=
  hps.map (fun hp => hp.address)

/-- Modelled from the spec: the `NewHostPorts` convenience constructor
exercised by the test suite — classify every textual value and attach
the shared port. -/
def NewHostPorts (port : Int) (values : List String) : List HostPort :=
  AddressesWithPort (values.map NewAddress) port

instance {ε α : Type} [DecidableEq ε] [DecidableEq α] : DecidableEq (Except ε α)
  | .error e1, .error e2 =>
    decidable_of_iff (e1 = e2) ⟨by rintro rfl; rfl, fun h => by injection h⟩
  | .error _, .ok _ => isFalse (fun h => Except.noConfusion h)
  | .ok _, .error _ => isFalse (fun h => Except.noConfusion h)
  | .ok a, .ok b =>
    decidable_of_iff (a = b) ⟨by rintro rfl; rfl, fun h => by injection h⟩

/-! ### Port parsing and printing -/

/-- Parses a non-empty all-decimal character list as a natural number. -/
def parseNatDigits (l : List Char) : Option Nat :=
  if l ≠ [] ∧ l.all Char.isDigit then
    some (l.foldl (fun a c => a * 10 + (c.toNat - 48)) 0)
  else none

/-- Modelled from the spec: the base-10 integer port parse of §4.2 of
the missing host-port parser — an optional sign followed by decimal
digits. -/
def parsePort (l : List Char) : Option Int :=
  match l with
  | [] => none
  | c :: rest =>
    if c = '-' then
      match parseNatDigits rest with
      | some n => some (-(n : Int))
      | none => none
    else if c = '+' then
      match parseNatDigits rest with
      | some n => some ((n : Int))
      | none => none
    else
      match parseNatDigits (c :: rest) with
      | some n => some ((n : Int))
      | none => none

/-- Decimal digits of `n` using `fuel` as the structural bound. -/
def natDigitsAux : Nat → Nat → List Char
  | 0, _ => []
  | fuel + 1, n =>
    if n = 0 then []
    else natDigitsAux fuel (n / 10) ++ [Char.ofNat (48 + n % 10)]

/-- Decimal rendering of a natural number. -/
def natToChars (n : Nat) : List Char :=
  if n = 0 then ['0'] else natDigitsAux n n

/-- Decimal rendering of an integer. -/
def intToChars (i : Int) : List Char :=
  if i < 0 then '-' :: natToChars i.natAbs else natToChars i.toNat

/-! ### Host-port parsing and rendering -/

/-- The unbracketed host/port split: succeeds exactly on a two-piece
split, that is on exactly one separator. -/
def pairOf : List (List Char) → Option (List Char × List Char)
  | [h, p] => some (h, p)
  | _ => none

/-- The bracketed host/port split: the piece before the closing bracket
is the host, and the remainder must begin with the port separator. -/
def bracketSplit : List (List Char) → Option (List Char × List Char)
  | [h, ':' :: p] => some (h, p)
  | _ => none

/-- Modelled from the spec: the host/port split of §4.2 of the missing
host-port parser — the final colon separates host and port, respecting
the bracket syntax of IPv6 literals; it fails when there is no port
separator or more than one unbracketed colon. -/
def splitHostPort (l : List Char) : Option (List Char × List Char) :=
  match l with
  | '[' :: inner => bracketSplit (splitOnChar ']' inner)
  | _ => pairOf (splitOnChar ':' l)

/-- Modelled from the spec: `parseHostPort(text) -> HostPort | error` of
§4.2 of the missing host-port parser. A malformed endpoint yields an
error carrying the offending input text; on success the address is built
via the scope classifier and paired with the parsed port. -/
def parseHostPort (text : String) : Except String HostPort :=
  match splitHostPort text.toList with
  | none => .error text
  | some (h, p) =>
    match parsePort p with
    | none => .error text
    | some port => .ok ⟨⟨String.mk h, classifyL h⟩, port⟩

/-- Modelled from the spec: the all-or-nothing batch parser
`parseHostPorts` of §4.2 of the missing host-port sources — parses in
order and fails fast on the first malformed entry. -/
def parseHostPorts : List String → Except String (List HostPort)
  | [] => .ok []
  | t :: rest =>
    match parseHostPort t with
    | .error e => .error e
    | .ok hp =>
      match parseHostPorts rest with
      | .error e => .error e
      | .ok hps => .ok (hp :: hps)

/-- Modelled from the spec: the rendering `hostPort.text()` of §4.3 of
the missing host-port sources — IPv6 literals render as `[value]:port`,
IPv4 literals and hostnames as `value:port`. -/
def HostPort.text (hp : HostPort) : String :=
  let v := hp.address.value.toList
  let p := intToChars hp.port
  if (parseIPv6 v).isSome then String.mk ('[' :: v ++ ']' :: ':' :: p)
  else String.mk (v ++ ':' :: p)

/-! ### List operations over host-ports -/

/-- Modelled from the spec: `filterUnusable` of §4.4 of the missing
host-port sources — removes every entry whose scope is MachineLocal or
LinkLocal, preserving the relative order of the rest. -/
def filterUnusable (l : List HostPort) : List HostPort :=
  l.filter (fun hp =>
    decide (hp.address.scope ≠ .machineLocal ∧ hp.address.scope ≠ .linkLocal))

/-- Modelled from the spec: `collapse` of §4.6 of the missing host-port
sources — appends the per-source groups in order into one sequence. -/
def collapse (groups : List (List HostPort)) : List HostPort :=
  groups.foldl (fun acc g => acc ++ g) []

/-- Worker of `unique`: `seen` is the set of values already emitted. -/
def uniqueGo (seen : List HostPort) : List HostPort → List HostPort
  | [] => []
  | x :: xs =>
    if x ∈ seen then uniqueGo seen xs
    else x :: uniqueGo (x :: seen) xs

/-- Modelled from the spec: the deduplicator `unique` of §4.7 of the
missing host-port sources — keeps the first occurrence of every value,
tracking already-seen values in a membership structure. -/
def unique (l : List HostPort) : List HostPort :=
  uniqueGo [] l

/-- First-occurrence subsequence, written the way the spec describes the
result of `unique`: keep the head and drop every later entry equal to
it. Used to state the deduplicator claim against an independent
formulation. -/
def firstOcc : List HostPort → List HostPort
  | [] => []
  | x :: xs => x :: firstOcc (xs.filter (fun y => y ≠ x))
termination_by l => l.length
decreasing_by
  simp only [List.length_cons]
  exact Nat.lt_succ_of_le (List.length_filter_le _ _)

/-- Modelled from the spec: `ensureFirst` of §4.8 of the missing
host-port sources — moves the first occurrence of `preferred` to index
0, or prepends it when absent. -/
def ensureFirst (preferred : HostPort) (l : List HostPort) : List HostPort :=
  if preferred ∈ l then preferred :: l.erase preferred
  else preferred :: l

/-! ### Priority sorting -/

/-- Modelled from the spec: the comparator tiers of §4.5 of the missing
priority sorter. Tiers in order of preference: public IPv4, public IPv6,
hostnames (values that are not IP literals, regardless of their stored
scope), cloud-local IPv4, cloud-local IPv6, machine-local IPv4,
machine-local IPv6, link-local IPv4, link-local IPv6; IP literals whose
stored scope is outside the spec's table come last. -/
def tier (hp : HostPort) : Nat :=
  let v := hp.address.value.toList
  if (parseIPv4 v).isSome then
    match hp.address.scope with
    | .public => 0
    | .cloudLocal => 3
    | .machineLocal => 5
    | .linkLocal => 7
    | .unknown => 9
  else if (parseIPv6 v).isSome then
    match hp.address.scope with
    | .public => 1
    | .cloudLocal => 4
    | .machineLocal => 6
    | .linkLocal => 8
    | .unknown => 9
  else 2

/-- Byte-wise lexicographic comparison of textual values, as Go compares
strings: the first differing character decides, and a proper prefix
comes first. -/
def clLt : List Char → List Char → Bool
  | [], [] => false
  | [], _ :: _ => true
  | _ :: _, [] => false
  | a :: as, b :: bs =>
    if a.toNat < b.toNat then true
    else if b.toNat < a.toNat then false
    else clLt as bs

theorem char_toNat_inj {a b : Char} (h : a.toNat = b.toNat) : a = b := by
  have hv : a.val = b.val := UInt32.toNat.inj h
  exact Char.ext hv

theorem clLt_trans :
    ∀ x y z : List Char, clLt x y = true → clLt y z = true → clLt x z = true := by
  intro x
  induction x with
  | nil =>
    intro y z hxy hyz
    cases y with
    | nil => exact hyz
    | cons b bs =>
      cases z with
      | nil => simp [clLt] at hyz
      | cons c cs => rfl
  | cons a as ih =>
    intro y z hxy hyz
    cases y with
    | nil => simp [clLt] at hxy
    | cons b bs =>
      cases z with
      | nil => simp [clLt] at hyz
      | cons c cs =>
        rw [clLt] at hxy hyz ⊢
        by_cases h1 : a.toNat < b.toNat
        · by_cases h2 : b.toNat < c.toNat
          · rw [if_pos (by omega)]
          · rw [if_neg h2] at hyz
            by_cases h3 : c.toNat < b.toNat
            · rw [if_pos h3] at hyz
              exact absurd hyz (by simp)
            · rw [if_pos (by omega)]
        · rw [if_neg h1] at hxy
          by_cases h1' : b.toNat < a.toNat
          · rw [if_pos h1'] at hxy
            exact absurd hxy (by simp)
          · rw [if_neg h1'] at hxy
            by_cases h2 : b.toNat < c.toNat
            · rw [if_pos (by omega)]
            · rw [if_neg h2] at hyz
              by_cases h3 : c.toNat < b.toNat
              · rw [if_pos h3] at hyz
                exact absurd hyz (by simp)
              · rw [if_neg h3] at hyz
                rw [if_neg (by omega), if_neg (by omega)]
                exact ih bs cs hxy hyz

theorem clLt_connex :
    ∀ x y : List Char, clLt x y = false → clLt y x = false → x = y := by
  intro x
  induction x with
  | nil =>
    intro y hxy _
    cases y with
    | nil => rfl
    | cons b bs => simp [clLt] at hxy
  | cons a as ih =>
    intro y hxy hyx
    cases y with
    | nil => simp [clLt] at hyx
    | cons b bs =>
      rw [clLt] at hxy hyx
      by_cases h1 : a.toNat < b.toNat
      · rw [if_pos h1] at hxy
        exact absurd hxy (by simp)
      · by_cases h2 : b.toNat < a.toNat
        · rw [if_pos h2] at hyx
          exact absurd hyx (by simp)
        · rw [if_neg h1, if_neg h2] at hxy
          rw [if_neg h2, if_neg h1] at hyx
          rw [char_toNat_inj (by omega : a.toNat = b.toNat), ih bs hxy hyx]

/-- Modelled from the spec: the total preorder of §4.5 of the missing
priority sorter — tier first, then ascending textual address value
(byte-wise lexicographic), then ascending port. -/
def hpLe (a b : HostPort) : Prop :=
  tier a < tier b ∨
    (tier a = tier b ∧
      (clLt a.address.value.toList b.address.value.toList = true ∨
        (a.address.value = b.address.value ∧ a.port ≤ b.port)))

instance : DecidableRel hpLe := fun a b =>
  inferInstanceAs (Decidable (tier a < tier b ∨
    (tier a = tier b ∧
      (clLt a.address.value.toList b.address.value.toList = true ∨
        (a.address.value = b.address.value ∧ a.port ≤ b.port)))))

instance : IsTotal HostPort hpLe where
  total a b := by
    unfold hpLe
    rcases Nat.lt_trichotomy (tier a) (tier b) with h | h | h
    · exact Or.inl (Or.inl h)
    · rcases hv : clLt a.address.value.toList b.address.value.toList with _ | _
      · rcases hv2 : clLt b.address.value.toList a.address.value.toList with _ | _
        · have heq : a.address.value = b.address.value :=
            String.ext (clLt_connex _ _ hv hv2)
          rcases Int.le_total a.port b.port with h3 | h3
          · exact Or.inl (Or.inr ⟨h, Or.inr ⟨heq, h3⟩⟩)
          · exact Or.inr (Or.inr ⟨h.symm, Or.inr ⟨heq.symm, h3⟩⟩)
        · exact Or.inr (Or.inr ⟨h.symm, Or.inl rfl⟩)
      · exact Or.inl (Or.inr ⟨h, Or.inl rfl⟩)
    · exact Or.inr (Or.inl h)

instance : IsTrans HostPort hpLe where
  trans a b c hab hbc := by
    unfold hpLe at *
    rcases hab with h1 | ⟨h1, h1'⟩
    · rcases hbc with h2 | ⟨h2, _⟩
      · exact Or.inl (h1.trans h2)
      · exact Or.inl (h2 ▸ h1)
    · rcases hbc with h2 | ⟨h2, h2'⟩
      · exact Or.inl (h1 ▸ h2)
      · refine Or.inr ⟨h1.trans h2, ?_⟩
        rcases h1' with hv1 | ⟨hv1, hp1⟩
        · rcases h2' with hv2 | ⟨hv2, _⟩
          · exact Or.inl (clLt_trans _ _ _ hv1 hv2)
          · exact Or.inl (hv2 ▸ hv1)
        · rcases h2' with hv2 | ⟨hv2, hp2⟩
          · exact Or.inl (hv1 ▸ hv2)
          · exact Or.inr ⟨hv1.trans hv2, hp1.trans hp2⟩

/-- Modelled from the spec: `sortHostPorts` of §4.5 of the missing
priority sorter — a stable sort by the comparator above. -/
def sortHostPorts (l : List HostPort) : List HostPort :=
  List.insertionSort hpLe l

/-! ### Supporting lemmas -/

theorem foldl_append_eq (gs : List (List HostPort)) :
    ∀ acc : List HostPort, List.foldl (fun a g => a ++ g) acc gs = acc ++ gs.flatten := by
  induction gs with
  | nil => intro acc; simp
  | cons g t ih => intro acc; simp [ih, List.append_assoc]

theorem classify_not_ip {v : String} (h4 : parseIPv4 v.toList = none)
    (h6 : parseIPv6 v.toList = none) : classify v = Scope.unknown := by
  unfold classify classifyL
  rw [h4, h6]

theorem splitOnChar_ne_nil (sep : Char) (l : List Char) : splitOnChar sep l ≠ [] := by
  induction l with
  | nil => simp [splitOnChar]
  | cons c rest ih =>
    rw [splitOnChar]
    by_cases h : c = sep
    · simp [h]
    · rw [if_neg h]
      rcases hr : splitOnChar sep rest with _ | ⟨p, t⟩
      · simp
      · simp

theorem splitOnChar_reconstruct (sep : Char) (l : List Char) :
    ∀ c ∈ l, c = sep ∨ ∃ p ∈ splitOnChar sep l, c ∈ p := by
  induction l with
  | nil => simp
  | cons c' rest ih =>
    intro c hc
    rw [splitOnChar]
    by_cases h : c' = sep
    · rw [if_pos h]
      rcases List.mem_cons.mp hc with rfl | hc
      · exact Or.inl h
      · rcases ih c hc with h1 | ⟨p, hp, hcp⟩
        · exact Or.inl h1
        · exact Or.inr ⟨p, List.mem_cons_of_mem _ hp, hcp⟩
    · rw [if_neg h]
      rcases hr : splitOnChar sep rest with _ | ⟨ph, pt⟩
      · exact absurd hr (splitOnChar_ne_nil sep rest)
      · rcases List.mem_cons.mp hc with rfl | hc
        · exact Or.inr ⟨c :: ph, List.mem_cons_self _ _, List.mem_cons_self _ _⟩
        · rcases ih c hc with h1 | ⟨p, hp, hcp⟩
          · exact Or.inl h1
          · rw [hr] at hp
            rcases List.mem_cons.mp hp with rfl | hp
            · exact Or.inr ⟨c' :: p, List.mem_cons_self _ _, List.mem_cons_of_mem _ hcp⟩
            · exact Or.inr ⟨p, List.mem_cons_of_mem _ hp, hcp⟩

theorem splitOnChar_single {sep : Char} {l : List Char} (h : sep ∉ l) :
    splitOnChar sep l = [l] := by
  induction l with
  | nil => rfl
  | cons c rest ih =>
    rw [splitOnChar, if_neg (fun hc => h (List.mem_cons.mpr (Or.inl hc.symm))),
      ih (fun hm => h (List.mem_cons_of_mem c hm))]

theorem splitOnChar_append {sep : Char} {h : List Char} (p : List Char) (hh : sep ∉ h) :
    splitOnChar sep (h ++ sep :: p) = h :: splitOnChar sep p := by
  induction h with
  | nil => simp [splitOnChar]
  | cons c rest ih =>
    have hc : ¬ c = sep := fun hc => hh (List.mem_cons.mpr (Or.inl hc.symm))
    rw [List.cons_append, splitOnChar, if_neg hc,
      ih (fun hm => hh (List.mem_cons_of_mem c hm))]

theorem breakDC_reconstruct {l : List Char} :
    ∀ {p : List Char × List Char}, breakDC l = some p →
      l = p.1 ++ ':' :: ':' :: p.2 := by
  induction l using breakDC.induct with
  | case1 => intro p h; simp [breakDC] at h
  | case2 c => intro p h; simp [breakDC] at h
  | case3 c1 c2 rest hcc =>
    intro p h
    rw [breakDC, if_pos hcc] at h
    injection h with h
    subst h
    rw [hcc.1, hcc.2]
    rfl
  | case4 c1 c2 rest hcc ih =>
    intro p h
    rw [breakDC, if_neg hcc] at h
    rcases Option.map_eq_some'.mp h with ⟨q, hq, hpq⟩
    rw [← hpq]
    simp only
    rw [List.cons_append]
    exact congrArg (fun t => c1 :: t) (ih hq)

theorem breakDC_colon {l : List Char} {p : List Char × List Char}
    (h : breakDC l = some p) : ':' ∈ l := by
  rw [breakDC_reconstruct h]
  simp

theorem parseOctet_digits {g : List Char} {v : Nat} (h : parseOctet g = some v) :
    ∀ c ∈ g, c.isDigit := by
  unfold parseOctet at h
  split_ifs at h with h1
  intro c hc
  exact List.all_eq_true.mp h1.2.2.1 c hc

theorem parseOctet_le {g : List Char} {v : Nat} (h : parseOctet g = some v) :
    v ≤ 255 := by
  unfold parseOctet at h
  split_ifs at h with h1
  injection h with h
  omega

theorem parseIPv4_no_colon {l : List Char} {q : Nat × Nat × Nat × Nat}
    (h : parseIPv4 l = some q) : ':' ∉ l := by
  intro hc
  unfold parseIPv4 at h
  split at h
  · rename_i a b c d heq
    split at h
    · rename_i x y z w hx hy hz hw
      rcases splitOnChar_reconstruct '.' l ':' hc with h1 | ⟨p, hp, hcp⟩
      · simp at h1
      · rw [heq] at hp
        simp only [List.mem_cons, List.not_mem_nil, or_false] at hp
        have hdig : (':' : Char).isDigit := by
          rcases hp with rfl | rfl | rfl | rfl
          · exact parseOctet_digits hx ':' hcp
          · exact parseOctet_digits hy ':' hcp
          · exact parseOctet_digits hz ':' hcp
          · exact parseOctet_digits hw ':' hcp
        simp at hdig
    · exact absurd h (by simp)
  · exact absurd h (by simp)

theorem hexVal_lt {c : Char} (h : isHexDigit c = true) : hexVal c < 16 := by
  unfold isHexDigit at h
  unfold hexVal
  simp only [Bool.or_eq_true, Bool.and_eq_true, decide_eq_true_eq] at h
  split_ifs with h1 h2 <;> omega

theorem foldl_hex_lt (g : List Char) :
    ∀ acc, (∀ c ∈ g, isHexDigit c = true) →
      g.foldl (fun a c => a * 16 + hexVal c) acc < (acc + 1) * 16 ^ g.length := by
  induction g with
  | nil => intro acc _; simp
  | cons c t ih =>
    intro acc hall
    rw [List.foldl_cons, List.length_cons]
    have h1 : hexVal c < 16 := hexVal_lt (hall c (List.mem_cons_self c t))
    have h2 := ih (acc * 16 + hexVal c) (fun x hx => hall x (List.mem_cons_of_mem c hx))
    have h3 : (acc * 16 + hexVal c + 1) * 16 ^ t.length ≤ (acc + 1) * 16 ^ (t.length + 1) := by
      rw [pow_succ]
      calc (acc * 16 + hexVal c + 1) * 16 ^ t.length
          ≤ ((acc + 1) * 16) * 16 ^ t.length := Nat.mul_le_mul_right _ (by omega)
        _ = (acc + 1) * (16 ^ t.length * 16) := by ring
    omega

theorem parseHexGroup_lt {g : List Char} {v : Nat} (h : parseHexGroup g = some v) :
    v < 65536 := by
  unfold parseHexGroup at h
  split_ifs at h with h1
  injection h with h
  subst h
  have hlt := foldl_hex_lt g 0 (List.all_eq_true.mp h1.2.2)
  have hlen : (16 : Nat) ^ g.length ≤ 16 ^ 4 := Nat.pow_le_pow_right (by omega) h1.2.1
  omega

theorem parseHexGroup_hex {g : List Char} {v : Nat} (h : parseHexGroup g = some v) :
    ∀ c ∈ g, isHexDigit c = true := by
  unfold parseHexGroup at h
  split_ifs at h with h1
  exact List.all_eq_true.mp h1.2.2

theorem allGroups_mem {ps : List (List Char)} :
    ∀ {gs : List Nat}, allGroups ps = some gs → ∀ x ∈ gs, x < 65536 := by
  induction ps with
  | nil =>
    intro gs h x hx
    rw [allGroups] at h
    injection h with h
    subst h
    simp at hx
  | cons p rest ih =>
    intro gs h x hx
    rw [allGroups] at h
    split at h
    · rename_i g gs' hg hgs
      injection h with h
      subst h
      rcases List.mem_cons.mp hx with rfl | hx
      · exact parseHexGroup_lt hg
      · exact ih hgs x hx
    · exact absurd h (by simp)

theorem allGroups_chars {ps : List (List Char)} :
    ∀ {gs : List Nat}, allGroups ps = some gs →
      ∀ p ∈ ps, ∀ c ∈ p, isHexDigit c = true := by
  induction ps with
  | nil => intro gs _ p hp; simp at hp
  | cons q rest ih =>
    intro gs h p hp
    rw [allGroups] at h
    split at h
    · rename_i g gs' hg hgs
      rcases List.mem_cons.mp hp with rfl | hp
      · exact parseHexGroup_hex hg
      · exact ih hgs p hp
    · exact absurd h (by simp)

theorem parseIPv6_none_of_no_colon {l : List Char} (h : ':' ∉ l) :
    parseIPv6 l = none := by
  have hb : breakDC l = none := by
    rcases hbr : breakDC l with _ | p
    · rfl
    · exact absurd (breakDC_colon hbr) h
  unfold parseIPv6
  rw [hb, splitOnChar_single h]
  rcases hg : parseHexGroup l with _ | g <;> simp [allGroups, hg]

theorem ipv4_ipv6_disjoint {l : List Char} {q : Nat × Nat × Nat × Nat}
    (h : parseIPv4 l = some q) : parseIPv6 l = none :=
  parseIPv6_none_of_no_colon (parseIPv4_no_colon h)

theorem parseIPv4_bounds {l : List Char} {a b c d : Nat}
    (h : parseIPv4 l = some (a, b, c, d)) :
    a ≤ 255 ∧ b ≤ 255 ∧ c ≤ 255 ∧ d ≤ 255 := by
  unfold parseIPv4 at h
  split at h
  · split at h
    · rename_i x y z w hx hy hz hw
      injection h with h
      simp only [Prod.mk.injEq] at h
      obtain ⟨rfl, rfl, rfl, rfl⟩ := h
      exact ⟨parseOctet_le hx, parseOctet_le hy, parseOctet_le hz, parseOctet_le hw⟩
    · exact absurd h (by simp)
  · exact absurd h (by simp)

theorem groupsOf_mem {side : List Char} {gs : List Nat}
    (h : groupsOf side = some gs) : ∀ x ∈ gs, x < 65536 := by
  unfold groupsOf at h
  split_ifs at h with h1
  · injection h with h
    subst h
    simp
  · exact allGroups_mem h

theorem parseIPv6_shape {l : List Char} {g : List Nat} (h : parseIPv6 l = some g) :
    g.length = 8 ∧ ∀ x ∈ g, x < 65536 := by
  unfold parseIPv6 at h
  split at h
  · rename_i lft rgt heq
    split_ifs at h with hdc
    split at h
    · rename_i a b ha hb
      split_ifs at h with hlen
      · injection h with h
        subst h
        constructor
        · simp only [List.length_append, List.length_replicate]
          omega
        · intro x hx
          rcases List.mem_append.mp hx with hx | hx
          · rcases List.mem_append.mp hx with hx | hx
            · exact groupsOf_mem ha x hx
            · rw [List.eq_of_mem_replicate hx]
              omega
          · exact groupsOf_mem hb x hx
    · exact absurd h (by simp)
  · split at h
    · rename_i a ha
      split_ifs at h with hlen
      injection h with h
      subst h
      exact ⟨hlen, allGroups_mem ha⟩
    · exact absurd h (by simp)

theorem exists_eight {g : List Nat} (h : g.length = 8) :
    ∃ x0 x1 x2 x3 x4 x5 x6 x7, g = [x0, x1, x2, x3, x4, x5, x6, x7] := by
  rcases g with _ | ⟨x0, _ | ⟨x1, _ | ⟨x2, _ | ⟨x3, _ | ⟨x4, _ | ⟨x5, _ | ⟨x6, _ |
    ⟨x7, _ | ⟨x8, t⟩⟩⟩⟩⟩⟩⟩⟩⟩
  · simp at h
  · simp at h
  · simp at h
  · simp at h
  · simp at h
  · simp at h
  · simp at h
  · simp at h
  · exact ⟨x0, x1, x2, x3, x4, x5, x6, x7, rfl⟩
  · simp at h

theorem uniqueGo_sublist (l : List HostPort) :
    ∀ seen, List.Sublist (uniqueGo seen l) l := by
  induction l with
  | nil => intro seen; simp [uniqueGo]
  | cons x xs ih =>
    intro seen
    rw [uniqueGo]
    by_cases h : x ∈ seen
    · rw [if_pos h]
      exact (ih seen).cons x
    · rw [if_neg h]
      exact (ih (x :: seen)).cons₂ x

theorem uniqueGo_eq_firstOcc (l : List HostPort) :
    ∀ seen, uniqueGo seen l = firstOcc (l.filter (fun y => y ∉ seen)) := by
  induction l with
  | nil => intro seen; simp [uniqueGo, firstOcc]
  | cons x xs ih =>
    intro seen
    rw [uniqueGo, List.filter_cons]
    by_cases h : x ∈ seen
    · rw [if_pos h, if_neg (by simpa using h)]
      exact ih seen
    · rw [if_neg h, if_pos (by simpa using h), firstOcc, ih (x :: seen),
        List.filter_filter]
      refine congrArg (fun t => x :: t) (congrArg firstOcc (List.filter_congr (fun a _ => ?_)))
      by_cases h1 : a = x <;> by_cases h2 : a ∈ seen <;> simp [h1, h2]

theorem unique_eq_firstOcc (l : List HostPort) : unique l = firstOcc l := by
  rw [unique, uniqueGo_eq_firstOcc l []]
  exact congrArg firstOcc (List.filter_eq_self.mpr (fun a _ => by simp))

theorem firstOcc_subset (l : List HostPort) : ∀ y ∈ firstOcc l, y ∈ l := by
  induction l using firstOcc.induct with
  | case1 => simp [firstOcc]
  | case2 x xs ih =>
    intro y hy
    rw [firstOcc] at hy
    rcases List.mem_cons.mp hy with rfl | hy
    · exact List.mem_cons_self y xs
    · exact List.mem_cons_of_mem x (List.mem_of_mem_filter (ih y hy))

theorem firstOcc_nodup (l : List HostPort) : (firstOcc l).Nodup := by
  induction l using firstOcc.induct with
  | case1 => simp [firstOcc]
  | case2 x xs ih =>
    rw [firstOcc]
    refine List.nodup_cons.mpr ⟨fun hmem => ?_, ih⟩
    have := firstOcc_subset _ x hmem
    simp at this

theorem firstOcc_of_nodup (l : List HostPort) (h : l.Nodup) : firstOcc l = l := by
  induction l using firstOcc.induct with
  | case1 => simp [firstOcc]
  | case2 x xs ih =>
    rcases List.nodup_cons.mp h with ⟨hx, hxs⟩
    have hf : xs.filter (fun y => y ≠ x) = xs :=
      List.filter_eq_self.mpr (fun a ha => by
        simp only [decide_eq_true_eq]
        exact fun hax => hx (hax ▸ ha))
    have h2 : (xs.filter (fun y => y ≠ x)).Nodup := by rw [hf]; exact hxs
    rw [firstOcc, ih h2, hf]

theorem uniqueGo_replicate (n : Nat) (x : HostPort) :
    ∀ seen, x ∈ seen → uniqueGo seen (List.replicate n x) = [] := by
  induction n with
  | zero => intro seen _; simp [uniqueGo]
  | succ m ih =>
    intro seen hx
    rw [List.replicate_succ, uniqueGo, if_pos hx]
    exact ih seen hx

theorem splitOnChar_length (sep : Char) (l : List Char) :
    (splitOnChar sep l).length = l.count sep + 1 := by
  induction l with
  | nil => simp [splitOnChar]
  | cons c rest ih =>
    rw [splitOnChar]
    by_cases h : c = sep
    · rw [if_pos h, List.length_cons, ih, List.count_cons]
      simp [h]
    · rw [if_neg h]
      rcases hr : splitOnChar sep rest with _ | ⟨ph, pt⟩
      · exact absurd hr (splitOnChar_ne_nil sep rest)
      · rw [hr] at ih
        simp only [List.length_cons] at ih
        simp only [List.length_cons, ih, List.count_cons]
        simp [h]

theorem pairOf_ne_two {parts : List (List Char)} (h : parts.length ≠ 2) :
    pairOf parts = none := by
  rcases parts with _ | ⟨a, _ | ⟨b, _ | ⟨c, t⟩⟩⟩
  · rfl
  · rfl
  · exact absurd rfl h
  · rfl

theorem splitHostPort_plain {l : List Char} (hb : l.head? ≠ some '[') :
    splitHostPort l = pairOf (splitOnChar ':' l) := by
  rcases l with _ | ⟨c, rest⟩
  · rfl
  · rw [splitHostPort.eq_def]
    have hc : c ≠ '[' := fun hceq => hb (by rw [hceq]; rfl)
    split
    · rename_i inner heq
      injection heq with h1 h2
      exact absurd h1 hc
    · rfl

theorem head_append_ne {h p : List Char} {c0 : Char} (hb : h.head? ≠ some '[')
    (hc : c0 ≠ '[') : (h ++ c0 :: p).head? ≠ some '[' := by
  rcases h with _ | ⟨c, t⟩
  · simpa using hc
  · simpa using fun hceq => hb (by rw [hceq]; rfl)

theorem parseHostPort_split_none {s : String} (h : splitHostPort s.toList = none) :
    parseHostPort s = .error s := by
  unfold parseHostPort
  rw [h]

theorem parseHostPort_split_err {s : String} {hl pl : List Char}
    (h : splitHostPort s.toList = some (hl, pl)) (hpp : parsePort pl = none) :
    parseHostPort s = .error s := by
  unfold parseHostPort
  rw [h]
  dsimp only
  rw [hpp]

theorem parseHostPort_split_ok {s : String} {hl pl : List Char} {port : Int}
    (h : splitHostPort s.toList = some (hl, pl)) (hpp : parsePort pl = some port) :
    parseHostPort s = .ok ⟨⟨String.mk hl, classifyL hl⟩, port⟩ := by
  unfold parseHostPort
  rw [h]
  dsimp only
  rw [hpp]

theorem splitHostPort_no_colon {l : List Char} (hb : l.head? ≠ some '[')
    (hc : ':' ∉ l) : splitHostPort l = none := by
  rw [splitHostPort_plain hb, splitOnChar_single hc]
  rfl

theorem splitHostPort_two_colons {l : List Char} (hb : l.head? ≠ some '[')
    (hc : 2 ≤ l.count ':') : splitHostPort l = none := by
  rw [splitHostPort_plain hb]
  refine pairOf_ne_two ?_
  rw [splitOnChar_length]
  omega

theorem splitHostPort_one_colon {h p : List Char} (hb : h.head? ≠ some '[')
    (hch : ':' ∉ h) (hcp : ':' ∉ p) :
    splitHostPort (h ++ ':' :: p) = some (h, p) := by
  rw [splitHostPort_plain (head_append_ne hb (by decide)),
    splitOnChar_append p hch, splitOnChar_single hcp]
  rfl

theorem splitHostPort_bracketed {v p : List Char} (hv : ']' ∉ v)
    (hp1 : ']' ∉ p) :
    splitHostPort ('[' :: v ++ ']' :: ':' :: p) = some (v, p) := by
  have hrest : (']' : Char) ∉ ':' :: p := by
    intro hmem
    rcases List.mem_cons.mp hmem with h1 | h1
    · exact absurd h1 (by decide)
    · exact hp1 h1
  show bracketSplit (splitOnChar ']' (v ++ ']' :: ':' :: p)) = some (v, p)
  rw [splitOnChar_append (':' :: p) hv, splitOnChar_single hrest]
  rfl

theorem parseHostPort_error_form (s : String) :
    (parseHostPort s).isOk = true ∨ parseHostPort s = .error s := by
  unfold parseHostPort
  rcases hsp : splitHostPort s.toList with _ | ⟨hl, pl⟩
  · exact Or.inr rfl
  · rcases hpp : parsePort pl with _ | port
    · right
      dsimp only
      rw [hpp]
    · left
      dsimp only
      rw [hpp]
      rfl

theorem parseHostPort_fail_eq {s : String} (h : (parseHostPort s).isOk = false) :
    parseHostPort s = .error s := by
  rcases parseHostPort_error_form s with h1 | h1
  · rw [h1] at h
    exact absurd h (by simp)
  · exact h1

theorem parseHostPort_ok_exists {s : String} (h : (parseHostPort s).isOk = true) :
    ∃ hp, parseHostPort s = .ok hp := by
  rcases hq : parseHostPort s with e | hp
  · rw [hq] at h
    exact absurd h (by simp [Except.isOk, Except.toBool])
  · exact ⟨hp, rfl⟩

theorem natDigitsAux_zero (fuel : Nat) : natDigitsAux fuel 0 = [] := by
  cases fuel <;> rfl

theorem digit_ofNat_isDigit {d : Nat} (hd : d < 10) :
    (Char.ofNat (48 + d)).isDigit = true := by
  interval_cases d <;> decide

theorem digit_ofNat_toNat {d : Nat} (hd : d < 10) :
    (Char.ofNat (48 + d)).toNat = 48 + d := by
  interval_cases d <;> decide

theorem natDigitsAux_spec (fuel : Nat) :
    ∀ n, 0 < n → n ≤ fuel →
      natDigitsAux fuel n ≠ [] ∧ (∀ c ∈ natDigitsAux fuel n, c.isDigit = true) ∧
        (natDigitsAux fuel n).foldl (fun a c => a * 10 + (c.toNat - 48)) 0 = n := by
  induction fuel with
  | zero => intro n h1 h2; omega
  | succ f ih =>
    intro n h1 h2
    rw [natDigitsAux, if_neg (by omega)]
    by_cases hq : n / 10 = 0
    · rw [hq, natDigitsAux_zero, List.nil_append]
      refine ⟨by simp, ?_, ?_⟩
      · intro c hc
        rw [List.mem_singleton] at hc
        subst hc
        exact digit_ofNat_isDigit (by omega)
      · simp only [List.foldl_cons, List.foldl_nil]
        rw [digit_ofNat_toNat (by omega)]
        omega
    · obtain ⟨hne, hdig, hval⟩ := ih (n / 10) (by omega) (by omega)
      refine ⟨by simp, ?_, ?_⟩
      · intro c hc
        rcases List.mem_append.mp hc with hc | hc
        · exact hdig c hc
        · rw [List.mem_singleton] at hc
          subst hc
          exact digit_ofNat_isDigit (by omega)
      · rw [List.foldl_append, hval]
        simp only [List.foldl_cons, List.foldl_nil]
        rw [digit_ofNat_toNat (by omega)]
        omega

theorem natToChars_digits (n : Nat) :
    (∀ c ∈ natToChars n, c.isDigit = true) ∧
      parseNatDigits (natToChars n) = some n := by
  unfold natToChars
  by_cases h : n = 0
  · subst h
    rw [if_pos rfl]
    refine ⟨?_, rfl⟩
    intro c hc
    rw [List.mem_singleton] at hc
    subst hc
    decide
  · rw [if_neg h]
    obtain ⟨hne, hdig, hval⟩ := natDigitsAux_spec n n (by omega) le_rfl
    refine ⟨hdig, ?_⟩
    unfold parseNatDigits
    rw [if_pos ⟨hne, List.all_eq_true.mpr hdig⟩, hval]

theorem parsePort_intToChars (i : Int) : parsePort (intToChars i) = some i := by
  unfold intToChars
  by_cases h : i < 0
  · rw [if_pos h, parsePort, if_pos rfl, (natToChars_digits i.natAbs).2]
    dsimp only
    have hn : (-(i.natAbs : Int)) = i := by omega
    rw [hn]
  · rw [if_neg h]
    have hd := (natToChars_digits i.toNat).1
    have hp := (natToChars_digits i.toNat).2
    rcases hl : natToChars i.toNat with _ | ⟨c, rest⟩
    · exfalso
      rw [hl] at hp
      simp [parseNatDigits] at hp
    · have hcd : c.isDigit = true := hd c (hl ▸ List.mem_cons_self c rest)
      rw [hl] at hp
      rw [parsePort,
        if_neg (fun hc => by rw [hc] at hcd; exact absurd hcd (by decide)),
        if_neg (fun hc => by rw [hc] at hcd; exact absurd hcd (by decide)), hp]
      dsimp only
      have hn : ((i.toNat : Int)) = i := by omega
      rw [hn]

theorem intToChars_chars (i : Int) :
    ∀ c ∈ intToChars i, c = '-' ∨ c.isDigit = true := by
  unfold intToChars
  split_ifs with h
  · intro c hc
    rcases List.mem_cons.mp hc with rfl | hc
    · exact Or.inl rfl
    · exact Or.inr ((natToChars_digits _).1 c hc)
  · intro c hc
    exact Or.inr ((natToChars_digits _).1 c hc)

theorem intToChars_no_colon (i : Int) : ':' ∉ intToChars i := by
  intro hmem
  rcases intToChars_chars i ':' hmem with h | h
  · exact absurd h (by decide)
  · exact absurd h (by decide)

theorem intToChars_no_rbracket (i : Int) : ']' ∉ intToChars i := by
  intro hmem
  rcases intToChars_chars i ']' hmem with h | h
  · exact absurd h (by decide)
  · exact absurd h (by decide)

theorem groupsOf_chars {side : List Char} {gs : List Nat}
    (h : groupsOf side = some gs) :
    ∀ c ∈ side, isHexDigit c = true ∨ c = ':' := by
  unfold groupsOf at h
  split_ifs at h with h1
  · subst h1
    intro c hc
    simp at hc
  · intro c hc
    rcases splitOnChar_reconstruct ':' side c hc with h2 | ⟨p, hp, hcp⟩
    · exact Or.inr h2
    · exact Or.inl (allGroups_chars h p hp c hcp)

theorem parseIPv6_chars {l : List Char} {g : List Nat} (h : parseIPv6 l = some g) :
    ∀ c ∈ l, isHexDigit c = true ∨ c = ':' := by
  unfold parseIPv6 at h
  split at h
  · rename_i lft rgt heq
    split_ifs at h with hdc
    split at h
    · rename_i a b ha hb
      intro c hc
      rw [breakDC_reconstruct heq] at hc
      rcases List.mem_append.mp hc with hc | hc
      · exact groupsOf_chars ha c hc
      · rcases List.mem_cons.mp hc with rfl | hc
        · exact Or.inr rfl
        · rcases List.mem_cons.mp hc with rfl | hc
          · exact Or.inr rfl
          · exact groupsOf_chars hb c hc
    · exact absurd h (by simp)
  · split at h
    · rename_i a ha
      intro c hc
      rcases splitOnChar_reconstruct ':' l c hc with h2 | ⟨p, hp, hcp⟩
      · exact Or.inr h2
      · exact Or.inl (allGroups_chars ha p hp c hcp)
    · exact absurd h (by simp)

theorem ipv6_no_rbracket {l : List Char} {g : List Nat}
    (h : parseIPv6 l = some g) : ']' ∉ l := by
  intro hm
  rcases parseIPv6_chars h ']' hm with h1 | h1
  · exact absurd h1 (by decide)
  · exact absurd h1 (by decide)

/-! ### Claim theorems -/

/-- C3: `filterUnusable` returns a subsequence of its input in the
original relative order, containing exactly the entries whose scope is
neither MachineLocal nor LinkLocal (exact multiplicity, so no
deduplication); constructor-built hostname entries are retained, and the
output is never longer than the input. -/
theorem filterUnusable_spec (L : List HostPort) :
    List.Sublist (filterUnusable L) L ∧
    (∀ hp : HostPort, (filterUnusable L).count hp =
      if hp.address.scope ≠ Scope.machineLocal ∧ hp.address.scope ≠ Scope.linkLocal
      then L.count hp else 0) ∧
    (filterUnusable L).length ≤ L.length ∧
    (∀ (v : String) (p : Int), parseIPv4 v.toList = none → parseIPv6 v.toList = none →
      (⟨NewAddress v, p⟩ : HostPort) ∈ L →
      (⟨NewAddress v, p⟩ : HostPort) ∈ filterUnusable L) := by
  refine ⟨List.filter_sublist L, ?_, List.length_filter_le _ L, ?_⟩
  · intro hp
    by_cases h : hp.address.scope ≠ Scope.machineLocal ∧ hp.address.scope ≠ Scope.linkLocal
    · rw [if_pos h]
      exact List.count_filter (by simpa using h)
    · rw [if_neg h]
      refine List.count_eq_zero.mpr (fun hmem => ?_)
      rcases List.mem_filter.mp hmem with ⟨_, hpred⟩
      exact h (by simpa using hpred)
  · intro v p h4 h6 hmem
    refine List.mem_filter.mpr ⟨hmem, ?_⟩
    have hcl : classify v = Scope.unknown := classify_not_ip h4 h6
    simp [NewAddress, hcl]

/-- C3 witness: a syntactically invalid hostname entry survives the
filter on a concrete list. -/
theorem filterUnusable_spec_witness :
    (⟨NewAddress "invalid host", 1234⟩ : HostPort) ∈
      filterUnusable [⟨NewAddress "127.0.0.1", 1234⟩, ⟨NewAddress "invalid host", 1234⟩] :=
  (filterUnusable_spec _).2.2.2 "invalid host" 1234 rfl rfl (by decide)

/-- C6: `ensureFirst` on the empty list yields the single preferred
entry; it leaves a list alone when the preferred entry is already first;
when the entry is present it moves that occurrence to index 0, keeping
every other element in relative order with no duplication or removal;
when absent it prepends, growing the length by one. -/
theorem ensureFirst_spec (x : HostPort) (L : List HostPort) :
    ensureFirst x [] = [x] ∧
    (∀ t : List HostPort, ensureFirst x (x :: t) = x :: t) ∧
    (x ∉ L → ensureFirst x L = x :: L ∧ (ensureFirst x L).length = L.length + 1) ∧
    (x ∈ L → (ensureFirst x L).length = L.length ∧
      ∃ l₁ l₂, x ∉ l₁ ∧ L = l₁ ++ x :: l₂ ∧ ensureFirst x L = x :: (l₁ ++ l₂)) := by
  refine ⟨by simp [ensureFirst], fun t => ?_, fun h => ?_, fun h => ?_⟩
  · rw [ensureFirst, if_pos (List.mem_cons_self x t), List.erase_cons_head]
  · rw [ensureFirst, if_neg h]
    exact ⟨rfl, rfl⟩
  · constructor
    · rw [ensureFirst, if_pos h]
      have hL : 1 ≤ L.length := List.length_pos.mpr (List.ne_nil_of_mem h)
      simp [List.length_erase, h]
      omega
    · rcases List.exists_erase_eq h with ⟨l₁, l₂, hn, hL, hE⟩
      exact ⟨l₁, l₂, hn, hL, by rw [ensureFirst, if_pos h, hE]⟩

/-- C6 witness: moving a concrete entry from the back of a two-element
list to the front preserves the length. -/
theorem ensureFirst_spec_witness :
    (ensureFirst ⟨NewAddress "1.2.3.4", 1234⟩
      [⟨NewAddress "example.com", 1⟩, ⟨NewAddress "1.2.3.4", 1234⟩]).length = 2 :=
  ((ensureFirst_spec ⟨NewAddress "1.2.3.4", 1234⟩ _).2.2.2 (by decide)).1

/-- C2: the classifier is a total function (its type is `String →
Scope`, so no input is rejected). For IPv4 literals: the loopback range
`127.0.0.0/8` is MachineLocal, the link-local range `169.254.0.0/16` is
LinkLocal, the private ranges `10.0.0.0/8`, `172.16.0.0/12` and
`192.168.0.0/16` are CloudLocal, and every other IPv4 literal is Public.
For IPv6 literals: `::1` is MachineLocal, `fe80::/10` and `ff01::/16`
are LinkLocal, `fc00::/7` is CloudLocal, and every other IPv6 literal is
Public. Every string that is not an IP literal is treated as a hostname
(scope Unknown) rather than rejected. The ranges are stated as numeric
intervals of the address value. -/
theorem classify_spec (s : String) :
    (∀ a b c d : Nat, parseIPv4 s.toList = some (a, b, c, d) →
      ((classify s = Scope.machineLocal ↔
         127 * 2 ^ 24 ≤ ipv4Value a b c d ∧ ipv4Value a b c d < 128 * 2 ^ 24) ∧
       (classify s = Scope.linkLocal ↔
         43518 * 2 ^ 16 ≤ ipv4Value a b c d ∧ ipv4Value a b c d < 43519 * 2 ^ 16) ∧
       (classify s = Scope.cloudLocal ↔
         ((10 * 2 ^ 24 ≤ ipv4Value a b c d ∧ ipv4Value a b c d < 11 * 2 ^ 24) ∨
          (2753 * 2 ^ 20 ≤ ipv4Value a b c d ∧ ipv4Value a b c d < 2754 * 2 ^ 20) ∨
          (49320 * 2 ^ 16 ≤ ipv4Value a b c d ∧ ipv4Value a b c d < 49321 * 2 ^ 16))) ∧
       (classify s = Scope.public ↔
         ¬((127 * 2 ^ 24 ≤ ipv4Value a b c d ∧ ipv4Value a b c d < 128 * 2 ^ 24) ∨
           (43518 * 2 ^ 16 ≤ ipv4Value a b c d ∧ ipv4Value a b c d < 43519 * 2 ^ 16) ∨
           (10 * 2 ^ 24 ≤ ipv4Value a b c d ∧ ipv4Value a b c d < 11 * 2 ^ 24) ∨
           (2753 * 2 ^ 20 ≤ ipv4Value a b c d ∧ ipv4Value a b c d < 2754 * 2 ^ 20) ∨
           (49320 * 2 ^ 16 ≤ ipv4Value a b c d ∧ ipv4Value a b c d < 49321 * 2 ^ 16))))) ∧
    (∀ g : List Nat, parseIPv6 s.toList = some g →
      ((classify s = Scope.machineLocal ↔ ipv6Value g = 1) ∧
       (classify s = Scope.linkLocal ↔
         ((1018 * 2 ^ 118 ≤ ipv6Value g ∧ ipv6Value g < 1019 * 2 ^ 118) ∨
          (65281 * 2 ^ 112 ≤ ipv6Value g ∧ ipv6Value g < 65282 * 2 ^ 112))) ∧
       (classify s = Scope.cloudLocal ↔
         126 * 2 ^ 121 ≤ ipv6Value g ∧ ipv6Value g < 127 * 2 ^ 121) ∧
       (classify s = Scope.public ↔
         ¬(ipv6Value g = 1 ∨
           (1018 * 2 ^ 118 ≤ ipv6Value g ∧ ipv6Value g < 1019 * 2 ^ 118) ∨
           (65281 * 2 ^ 112 ≤ ipv6Value g ∧ ipv6Value g < 65282 * 2 ^ 112) ∨
           (126 * 2 ^ 121 ≤ ipv6Value g ∧ ipv6Value g < 127 * 2 ^ 121))))) ∧
    (parseIPv4 s.toList = none → parseIPv6 s.toList = none →
      classify s = Scope.unknown) := by
  refine ⟨?_, ?_, fun h4 h6 => classify_not_ip h4 h6⟩
  · intro a b c d h4
    obtain ⟨ba, bb, bc, bd⟩ := parseIPv4_bounds h4
    unfold classify classifyL
    rw [h4]
    dsimp only
    simp only [ipv4Value]
    split_ifs with h1 h2 h3 <;>
      refine ⟨?_, ?_, ?_, ?_⟩ <;>
        first
          | exact ⟨fun _ => by omega, fun _ => rfl⟩
          | exact ⟨fun hh => absurd hh (by decide), fun hh => absurd hh (by omega)⟩
  · intro g h6
    have h4 : parseIPv4 s.toList = none := by
      rcases hq : parseIPv4 s.toList with _ | q
      · rfl
      · rw [ipv4_ipv6_disjoint hq] at h6
        exact absurd h6 (by simp)
    obtain ⟨hlen, hb⟩ := parseIPv6_shape h6
    obtain ⟨x0, x1, x2, x3, x4, x5, x6, x7, rfl⟩ := exists_eight hlen
    have b0 : x0 < 65536 := hb x0 (by simp)
    have b1 : x1 < 65536 := hb x1 (by simp)
    have b2 : x2 < 65536 := hb x2 (by simp)
    have b3 : x3 < 65536 := hb x3 (by simp)
    have b4 : x4 < 65536 := hb x4 (by simp)
    have b5 : x5 < 65536 := hb x5 (by simp)
    have b6 : x6 < 65536 := hb x6 (by simp)
    have b7 : x7 < 65536 := hb x7 (by simp)
    have hv : ipv6Value [x0, x1, x2, x3, x4, x5, x6, x7] =
        x0 * 2 ^ 112 + x1 * 2 ^ 96 + x2 * 2 ^ 80 + x3 * 2 ^ 64 +
          x4 * 2 ^ 48 + x5 * 2 ^ 32 + x6 * 2 ^ 16 + x7 := by
      simp only [ipv6Value, List.foldl]
      ring
    have hlist : ([x0, x1, x2, x3, x4, x5, x6, x7] = [0, 0, 0, 0, 0, 0, 0, 1]) ↔
        (x0 = 0 ∧ x1 = 0 ∧ x2 = 0 ∧ x3 = 0 ∧ x4 = 0 ∧ x5 = 0 ∧ x6 = 0 ∧ x7 = 1) := by
      simp
    unfold classify classifyL
    rw [h4, h6]
    dsimp only [List.headD]
    rw [hv]
    simp only [hlist]
    split_ifs with h1 h2 h3 <;>
      refine ⟨?_, ?_, ?_, ?_⟩ <;>
        first
          | exact ⟨fun _ => by omega, fun _ => rfl⟩
          | exact ⟨fun hh => absurd hh (by decide), fun hh => absurd hh (by omega)⟩

/-- C1: `sortHostPorts` returns a permutation of its input that is
sorted by the comparator `hpLe`: ascending tier, then ascending textual
address value, then ascending port. The tier table matches the claim:
public IPv4 literals (tier 0), public IPv6 literals (1), hostnames —
values that are not IP literals, whatever their stored scope — (2),
cloud-local IPv4 (3), cloud-local IPv6 (4), machine-local IPv4 (5),
machine-local IPv6 (6), link-local IPv4 (7), link-local IPv6 (8). -/
theorem sortHostPorts_spec (l : List HostPort) :
    List.Perm (sortHostPorts l) l ∧
    List.Sorted hpLe (sortHostPorts l) ∧
    (∀ (hp : HostPort) (q : Nat × Nat × Nat × Nat),
      parseIPv4 hp.address.value.toList = some q →
      tier hp = match hp.address.scope with
        | .public => 0 | .cloudLocal => 3 | .machineLocal => 5
        | .linkLocal => 7 | .unknown => 9) ∧
    (∀ (hp : HostPort) (g : List Nat),
      parseIPv6 hp.address.value.toList = some g →
      tier hp = match hp.address.scope with
        | .public => 1 | .cloudLocal => 4 | .machineLocal => 6
        | .linkLocal => 8 | .unknown => 9) ∧
    (∀ hp : HostPort, parseIPv4 hp.address.value.toList = none →
      parseIPv6 hp.address.value.toList = none → tier hp = 2) := by
  refine ⟨List.perm_insertionSort hpLe l, List.sorted_insertionSort hpLe l, ?_, ?_, ?_⟩
  · intro hp q h4
    unfold tier
    dsimp only
    rw [h4]
    rfl
  · intro hp g h6
    have h4 : parseIPv4 hp.address.value.toList = none := by
      rcases hq : parseIPv4 hp.address.value.toList with _ | q
      · rfl
      · rw [ipv4_ipv6_disjoint hq] at h6
        exact absurd h6 (by simp)
    unfold tier
    dsimp only
    rw [h4, h6]
    rfl
  · intro hp h4 h6
    unfold tier
    dsimp only
    rw [h4, h6]
    rfl

/-- C1 witness: the five-address tier vector of the spec sorts into
exactly the claimed tier order, and the tier table is hit at a concrete
public IPv4 entry. -/
theorem sortHostPorts_spec_witness :
    tier ⟨NewAddress "8.8.8.8", 1234⟩ = 0 ∧
    sortHostPorts (NewHostPorts 1234
        ["127.0.0.1", "10.0.0.1", "example.com", "169.254.1.1", "8.8.8.8"]) =
      NewHostPorts 1234
        ["8.8.8.8", "example.com", "10.0.0.1", "127.0.0.1", "169.254.1.1"] := by
  constructor
  · exact (sortHostPorts_spec []).2.2.1 ⟨NewAddress "8.8.8.8", 1234⟩ (8, 8, 8, 8) rfl
  · rfl

/-- C2 witness: concrete instances of each classification branch. -/
theorem classify_spec_witness :
    classify "10.0.0.1" = Scope.cloudLocal ∧
    classify "fe80::2" = Scope.linkLocal ∧
    classify "invalid host" = Scope.unknown := by
  refine ⟨?_, ?_, ?_⟩
  · exact ((classify_spec "10.0.0.1").1 10 0 0 1 rfl).2.2.1.mpr (by
      simp only [ipv4Value]
      omega)
  · exact ((classify_spec "fe80::2").2.1 [65152, 0, 0, 0, 0, 0, 0, 2] rfl).2.1.mpr (by
      simp only [ipv6Value, List.foldl]
      omega)
  · exact (classify_spec "invalid host").2.2 rfl rfl

/-- C4: `unique` is exactly the first-occurrence subsequence of its
input (equal to the spec-worded `firstOcc`, and a sublist of the input);
its output has no two equal elements, it is idempotent, it leaves an
all-distinct list unchanged, and it collapses any non-empty run of one
repeated entry to that single entry. -/
theorem unique_spec (L : List HostPort) :
    unique L = firstOcc L ∧
    List.Sublist (unique L) L ∧
    (unique L).Nodup ∧
    unique (unique L) = unique L ∧
    (L.Nodup → unique L = L) ∧
    (∀ (x : HostPort) (n : Nat), 0 < n → unique (List.replicate n x) = [x]) := by
  have hnodup : (unique L).Nodup := by
    rw [unique_eq_firstOcc]; exact firstOcc_nodup L
  refine ⟨unique_eq_firstOcc L, uniqueGo_sublist L [], hnodup, ?_, fun h => ?_, ?_⟩
  · rw [unique_eq_firstOcc (unique L), firstOcc_of_nodup _ hnodup]
  · rw [unique_eq_firstOcc, firstOcc_of_nodup L h]
  · intro x n hn
    rcases Nat.exists_eq_add_of_lt hn with ⟨m, hm⟩
    subst hm
    rw [Nat.zero_add, List.replicate_succ, unique, uniqueGo,
      if_neg (List.not_mem_nil x), uniqueGo_replicate m x [x] (List.mem_singleton_self x)]

/-- C4 witness: ten thousand identical entries collapse to the single
first entry, as in the test suite's duplicate-heavy vector. -/
theorem unique_spec_witness :
    unique (List.replicate 10000 (⟨NewAddress "127.0.0.1", 49151⟩ : HostPort)) =
      [⟨NewAddress "127.0.0.1", 49151⟩] :=
  (unique_spec []).2.2.2.2.2 ⟨NewAddress "127.0.0.1", 49151⟩ 10000 (by decide)

/-- C5 counterexample: rendering is not a left inverse of parsing on all
parser outputs. `"[[a]:1"` parses (the bracket split takes the piece
before the first closing bracket), producing the host-port with value
`"[a"`, scope Unknown, port 1; its rendering is the unbracketed
`"[a:1"`, whose leading bracket makes re-parsing fail instead of
returning the host-port back. -/
theorem parseHostPort_roundTrip_cex :
    parseHostPort "[[a]:1" = .ok ⟨⟨"[a", Scope.unknown⟩, 1⟩ ∧
    HostPort.text ⟨⟨"[a", Scope.unknown⟩, 1⟩ = "[a:1" ∧
    parseHostPort "[a:1" = .error "[a:1" := by
  refine ⟨?_, ?_, ?_⟩ <;> rfl

/-- C5 (amended): for every HostPort produced by `parseHostPort` whose
address value is an IPv6 literal, or contains no colon and does not
start with an opening bracket, re-parsing the rendering returns the same
HostPort; the rendering brackets IPv6 literals as `[value]:port` and
renders every other value as `value:port`, preserving the text of the
value (hence the case of hex digits) exactly. The side condition is
forced by the counterexample above. -/
theorem parseHostPort_roundTrip :
    ∀ (t : String) (hp : HostPort), parseHostPort t = .ok hp →
      ((parseIPv6 hp.address.value.toList).isSome = true ∨
        (':' ∉ hp.address.value.toList ∧ hp.address.value.toList.head? ≠ some '[')) →
      parseHostPort hp.text = .ok hp := by
  intro t hp hparse hcond
  obtain ⟨hl, pl, port, hsp, hpp, rfl⟩ :
      ∃ hl pl port, splitHostPort t.toList = some (hl, pl) ∧
        parsePort pl = some port ∧
        hp = ⟨⟨String.mk hl, classifyL hl⟩, port⟩ := by
    unfold parseHostPort at hparse
    rcases hsp : splitHostPort t.toList with _ | ⟨hl, pl⟩
    · rw [hsp] at hparse
      exact absurd hparse (by simp)
    · rw [hsp] at hparse
      dsimp only at hparse
      rcases hpp : parsePort pl with _ | port
      · rw [hpp] at hparse
        exact absurd hparse (by simp)
      · rw [hpp] at hparse
        injection hparse with hparse
        exact ⟨hl, pl, port, rfl, hpp, hparse.symm⟩
  have htl : (String.mk hl).toList = hl := rfl
  unfold HostPort.text
  dsimp only
  rcases hcond with h6 | ⟨hch, hb⟩
  · rw [htl] at h6 ⊢
    rw [if_pos h6]
    obtain ⟨g, hg⟩ := Option.isSome_iff_exists.mp h6
    exact parseHostPort_split_ok
      (splitHostPort_bracketed (ipv6_no_rbracket hg) (intToChars_no_rbracket port))
      (parsePort_intToChars port)
  · rw [htl] at hch hb ⊢
    have h6 : (parseIPv6 hl).isSome = false := by
      rw [parseIPv6_none_of_no_colon hch]
      rfl
    rw [if_neg (by rw [h6]; exact Bool.false_ne_true)]
    exact parseHostPort_split_ok
      (splitHostPort_one_colon hb hch (intToChars_no_colon port))
      (parsePort_intToChars port)

/-- C5 witness: a bracketed IPv6 parser output round-trips through its
rendering on a concrete input. -/
theorem parseHostPort_roundTrip_witness :
    parseHostPort (HostPort.text ⟨⟨"fc00::1", Scope.cloudLocal⟩, 1234⟩) =
      .ok ⟨⟨"fc00::1", Scope.cloudLocal⟩, 1234⟩ :=
  parseHostPort_roundTrip "[fc00::1]:1234" ⟨⟨"fc00::1", Scope.cloudLocal⟩, 1234⟩
    (by rfl) (Or.inl (by rfl))

/-- C7: batch parsing is all-or-nothing. The empty batch succeeds with
the empty list; a batch succeeds with `hps` exactly when the texts parse
pointwise, in order, to `hps` (so every parsed value appears, in input
order); and whenever the batch contains a malformed text, the result is
an error naming the first malformed text — no partial list is ever
produced, as the result type offers either a single error or the full
list. -/
theorem parseHostPorts_spec :
    parseHostPorts [] = .ok [] ∧
    (∀ (ts : List String) (hps : List HostPort),
      parseHostPorts ts = .ok hps ↔
        List.Forall₂ (fun t hp => parseHostPort t = .ok hp) ts hps) ∧
    (∀ (pre : List String) (t : String) (rest : List String),
      (∀ s ∈ pre, (parseHostPort s).isOk = true) →
      (parseHostPort t).isOk = false →
      parseHostPorts (pre ++ t :: rest) = .error t) := by
  refine ⟨rfl, ?_, ?_⟩
  · intro ts
    induction ts with
    | nil =>
      intro hps
      rw [parseHostPorts]
      constructor
      · intro h
        injection h with h
        subst h
        exact List.Forall₂.nil
      · intro h
        rw [List.forall₂_nil_left_iff.mp h]
    | cons t ts ih =>
      intro hps
      rw [parseHostPorts]
      rcases hpt : parseHostPort t with e | hp
      · simp only [List.forall₂_cons_left_iff, hpt]
        constructor
        · intro h
          exact absurd h (by simp)
        · rintro ⟨b, u, hb, _, _⟩
          exact absurd hb (by simp)
      · rcases hrest : parseHostPorts ts with e | hps'
        · simp only [List.forall₂_cons_left_iff, hpt]
          constructor
          · intro h
            exact absurd h (by simp)
          · rintro ⟨b, u, hb, hu, _⟩
            rw [← ih u] at hu
            rw [hu] at hrest
            exact absurd hrest (by simp)
        · simp only [List.forall₂_cons_left_iff, hpt]
          constructor
          · intro h
            injection h with h
            exact ⟨hp, hps', rfl, (ih hps').mp hrest, h.symm⟩
          · rintro ⟨b, u, hb, hu, rfl⟩
            injection hb with hb
            subst hb
            rw [← ih u] at hu
            rw [hu] at hrest
            injection hrest with hrest
            rw [hrest]
  · intro pre t rest hall hfail
    induction pre with
    | nil =>
      rw [List.nil_append, parseHostPorts, parseHostPort_fail_eq hfail]
    | cons s pre ih =>
      obtain ⟨hp, hok⟩ := parseHostPort_ok_exists (hall s (List.mem_cons_self s pre))
      rw [List.cons_append, parseHostPorts, hok,
        ih (fun x hx => hall x (List.mem_cons_of_mem s hx))]

/-- C7 witness: a concrete mixed batch from the test suite fails fast on
the malformed final text, and a concrete all-valid batch succeeds. -/
theorem parseHostPorts_spec_witness :
    parseHostPorts ["1.2.3.4:42", "[fc00::1]:12", "foo"] = .error "foo" ∧
    parseHostPorts ["1.2.3.4:42"] = .ok [⟨⟨"1.2.3.4", Scope.public⟩, 42⟩] := by
  constructor
  · exact parseHostPorts_spec.2.2 ["1.2.3.4:42", "[fc00::1]:12"] "foo" []
      (by
        intro s hs
        simp only [List.mem_cons, List.not_mem_nil, or_false] at hs
        rcases hs with rfl | rfl <;> rfl) rfl
  · exact (parseHostPorts_spec.2.1 ["1.2.3.4:42"] [⟨⟨"1.2.3.4", Scope.public⟩, 42⟩]).mpr
      (List.Forall₂.cons rfl List.Forall₂.nil)

/-- C8: over bracket-free texts, `parseHostPort` fails with an error
carrying the text exactly when there is no port separator (no colon,
covering the bare host and the empty string), more than one unbracketed
colon, or a port segment that is not a valid base-10 integer; otherwise
it succeeds, pairing the address built via the scope classifier with the
parsed port. Well-formed bracketed texts `[v]:p` likewise succeed with a
valid port. Concretely, `"1.2.3.4:42"` yields value `"1.2.3.4"`, scope
Public, port 42, and `"host"` is a malformed endpoint. -/
theorem parseHostPort_spec :
    (∀ s : String, s.toList.head? ≠ some '[' → ':' ∉ s.toList →
      parseHostPort s = .error s) ∧
    (∀ s : String, s.toList.head? ≠ some '[' → 2 ≤ s.toList.count ':' →
      parseHostPort s = .error s) ∧
    (∀ h p : List Char, h.head? ≠ some '[' → ':' ∉ h → ':' ∉ p →
      parsePort p = none →
      parseHostPort (String.mk (h ++ ':' :: p)) = .error (String.mk (h ++ ':' :: p))) ∧
    (∀ (h p : List Char) (port : Int), h.head? ≠ some '[' → ':' ∉ h → ':' ∉ p →
      parsePort p = some port →
      parseHostPort (String.mk (h ++ ':' :: p)) =
        .ok ⟨⟨String.mk h, classifyL h⟩, port⟩) ∧
    (∀ (v p : List Char) (port : Int), ']' ∉ v → ']' ∉ p →
      parsePort p = some port →
      parseHostPort (String.mk ('[' :: v ++ ']' :: ':' :: p)) =
        .ok ⟨⟨String.mk v, classifyL v⟩, port⟩) ∧
    parseHostPort "1.2.3.4:42" = .ok ⟨⟨"1.2.3.4", Scope.public⟩, 42⟩ ∧
    parseHostPort "host" = .error "host" := by
  refine ⟨?_, ?_, ?_, ?_, ?_, ?_, ?_⟩
  · intro s hb hc
    exact parseHostPort_split_none (splitHostPort_no_colon hb hc)
  · intro s hb hc
    exact parseHostPort_split_none (splitHostPort_two_colons hb hc)
  · intro h p hb hch hcp hpp
    exact parseHostPort_split_err (splitHostPort_one_colon hb hch hcp) hpp
  · intro h p port hb hch hcp hpp
    exact parseHostPort_split_ok (splitHostPort_one_colon hb hch hcp) hpp
  · intro v p port hv hp1 hpp
    exact parseHostPort_split_ok (splitHostPort_bracketed hv hp1) hpp
  · rfl
  · rfl

/-- C8 witness: bracket-free error inputs from the test suite hit the
three error conditions, and a concrete plain success hits the success
clause. -/
theorem parseHostPort_spec_witness :
    parseHostPort "" = .error "" ∧
    parseHostPort "::1" = .error "::1" ∧
    parseHostPort "host:port" = .error "host:port" ∧
    parseHostPort "example.com:42" =
      .ok ⟨⟨"example.com", Scope.unknown⟩, 42⟩ := by
  refine ⟨?_, ?_, ?_, ?_⟩
  · exact parseHostPort_spec.1 "" (by decide) (by decide)
  · exact parseHostPort_spec.2.1 "::1" (by decide) (by decide)
  · exact parseHostPort_spec.2.2.1 "host".toList "port".toList
      (by decide) (by decide) (by decide) rfl
  · exact parseHostPort_spec.2.2.2.1 "example.com".toList "42".toList 42
      (by decide) (by decide) (by decide) rfl

/-- C9: `collapse` is exactly the flattening concatenation of its
groups, in the order given with each group's internal order preserved;
in particular three groups collapse to `A ++ B ++ C`. -/
theorem collapse_spec :
    (∀ gs : List (List HostPort), collapse gs = gs.flatten) ∧
    (∀ A B C : List HostPort, collapse [A, B, C] = A ++ B ++ C) := by
  have hgen : ∀ gs : List (List HostPort), collapse gs = gs.flatten := by
    intro gs
    rw [collapse, foldl_append_eq gs [], List.nil_append]
  refine ⟨hgen, fun A B C => ?_⟩
  rw [hgen [A, B, C]]
  simp [List.append_assoc]

/-- C10: stripping the ports from host-ports built out of an address
list and one shared port recovers the address list exactly, in order. -/
theorem hostsWithoutPort_addressesWithPort (A : List Address) (p : Int) :
    HostsWithoutPort (AddressesWithPort A p) = A := by
  simp [HostsWithoutPort, AddressesWithPort, List.map_map, Function.comp_def]

/-! ### Model validation against the sampled test suite

The sampled tree contains the subsystem's test suite; the theorems below
evaluate the spec-modelled operations on the suite's vectors and check
the expected outputs, tying the model to the behaviour the tests pin
down. -/

/-- The 29-entry mixed endpoint list built by the test suite's
`makeHostPorts` helper. -/
def makeHostPorts : List HostPort :=
  NewHostPorts 1234 ["127.0.0.1", "localhost", "example.com", "127.0.1.1", "example.org",
    "2001:db8::2", "169.254.1.1", "example.net", "invalid host", "fd00::22", "127.0.0.1",
    "2001:db8::1", "169.254.1.2", "ff01::22", "0.1.2.0", "2001:db8::1", "localhost",
    "10.0.0.1", "::1", "fc00::1", "fe80::2", "172.16.0.1", "::1", "8.8.8.8", "7.8.8.8"] ++
  NewHostPorts 9999 ["127.0.0.1", "10.0.0.1", "2001:db8::1", "fe80::2"]

/-- The sort vector of the test suite: sorting `makeHostPorts` yields the
nine tiers in order, each tier ordered by value then port. -/
theorem sort_test_vector :
    sortHostPorts makeHostPorts =
      NewHostPorts 1234 ["0.1.2.0", "7.8.8.8", "8.8.8.8"] ++
      [⟨NewAddress "2001:db8::1", 1234⟩, ⟨NewAddress "2001:db8::1", 1234⟩,
       ⟨NewAddress "2001:db8::1", 9999⟩, ⟨NewAddress "2001:db8::2", 1234⟩] ++
      NewHostPorts 1234 ["example.com", "example.net", "example.org", "invalid host",
        "localhost", "localhost"] ++
      [⟨NewAddress "10.0.0.1", 1234⟩, ⟨NewAddress "10.0.0.1", 9999⟩,
       ⟨NewAddress "172.16.0.1", 1234⟩, ⟨NewAddress "fc00::1", 1234⟩,
       ⟨NewAddress "fd00::22", 1234⟩] ++
      [⟨NewAddress "127.0.0.1", 1234⟩, ⟨NewAddress "127.0.0.1", 1234⟩,
       ⟨NewAddress "127.0.0.1", 9999⟩, ⟨NewAddress "127.0.1.1", 1234⟩,
       ⟨NewAddress "::1", 1234⟩, ⟨NewAddress "::1", 1234⟩] ++
      [⟨NewAddress "169.254.1.1", 1234⟩, ⟨NewAddress "169.254.1.2", 1234⟩,
       ⟨NewAddress "fe80::2", 1234⟩, ⟨NewAddress "fe80::2", 9999⟩,
       ⟨NewAddress "ff01::22", 1234⟩] := by rfl

/-- The filter vector of the test suite: machine-local and link-local
entries drop, everything else stays in order. -/
theorem filter_test_vector :
    filterUnusable makeHostPorts =
      NewHostPorts 1234 ["localhost", "example.com", "example.org", "2001:db8::2",
        "example.net", "invalid host", "fd00::22", "2001:db8::1", "0.1.2.0",
        "2001:db8::1", "localhost", "10.0.0.1", "fc00::1", "172.16.0.1",
        "8.8.8.8", "7.8.8.8"] ++
      NewHostPorts 9999 ["10.0.0.1", "2001:db8::1"] := by rfl

/-- The error vectors of the test suite's `TestParseHostPortsErrors`. -/
theorem parse_error_test_vectors :
    parseHostPort "" = .error "" ∧ parseHostPort " " = .error " " ∧
    parseHostPort ":" = .error ":" ∧ parseHostPort "host" = .error "host" ∧
    parseHostPort "host:port" = .error "host:port" ∧
    parseHostPort "::1" = .error "::1" ∧
    parseHostPort "1.2.3.4" = .error "1.2.3.4" ∧
    parseHostPort "1.2.3.4:foo" = .error "1.2.3.4:foo" := by
  refine ⟨?_, ?_, ?_, ?_, ?_, ?_, ?_, ?_⟩ <;> rfl

/-- The success vectors of the test suite's `TestParseHostPortsSuccess`
and the rendering vectors of `TestNetAddrAndString`. -/
theorem parse_render_test_vectors :
    parseHostPorts ["[fc00::1]:1234", "127.0.0.1:4321", "example.com:42"] =
      .ok [⟨NewAddress "fc00::1", 1234⟩, ⟨NewAddress "127.0.0.1", 4321⟩,
        ⟨NewAddress "example.com", 42⟩] ∧
    HostPort.text ⟨NewAddress "0.1.2.3", 99⟩ = "0.1.2.3:99" ∧
    HostPort.text ⟨NewAddress "2001:DB8::1", 100⟩ = "[2001:DB8::1]:100" ∧
    HostPort.text ⟨NewAddress "example.com", 9999⟩ = "example.com:9999" ∧
    HostPort.text ⟨⟨"example.com", Scope.public⟩, 1234⟩ = "example.com:1234" ∧
    HostPort.text ⟨NewAddress "::1", 111⟩ = "[::1]:111" := by
  refine ⟨?_, ?_, ?_, ?_, ?_, ?_⟩ <;> rfl

end HostPortSpec
